import Mathlib

set_option linter.unusedVariables false

/-! Shallow embedding of the chess engine core: the static evaluator
(src/engine/evaluation.py) and the depth-limited Negamax search with
alpha-beta pruning (src/engine/search.py).  The external python-chess
board is modelled by the capability record Game; the mutable board with
its push/pop stack is modelled by MBoard, threaded through the search in
state-passing style. -/

/-- Piece kinds of chess (chess.PAWN .. chess.KING). -/
inductive PieceType
  | pawn | knight | bishop | rook | queen | king
deriving DecidableEq

/-- A piece as returned by board.piece_map(): a kind and a color
(true models chess.WHITE). -/
structure Piece where
  piece_type : PieceType
  color : Bool
deriving DecidableEq

/-- Capability interface of the external chess.Board consumed by the engine:
piece enumeration, legal moves, side to move, terminal predicates, capture
and promotion queries, and move application. -/
structure Game (P M : Type) where
  piece_map : P → List Piece
  legal_moves : P → List M
  turn : P → Bool
  is_checkmate : P → Bool
  is_stalemate : P → Bool
  is_insufficient_material : P → Bool
  can_claim_draw : P → Bool
  is_game_over : P → Bool
  is_capture : P → M → Bool
  promotion : M → Bool
  push : P → M → P

/-- Base piece values (Evaluator.PIECE_VALUES in src/engine/evaluation.py). -/
def PIECE_VALUES : PieceType → Int
  | .pawn => 100
  | .knight => 320
  | .bishop => 330
  | .rook => 500
  | .queen => 900
  | .king => 0

/-- Evaluator configuration: the mobility weight, fixed at construction
(default 3 as in the source). -/
structure Evaluator where
  mobility_weight : Int := 3

/-- Evaluator.evaluate from src/engine/evaluation.py: material summed signed
by absolute color (positive for white), a mobility bonus for the side to move
signed by whether white is to move, then the terminal overrides: a checkmate
sentinel keyed to the color to move, and zero for stalemate, insufficient
material or a claimable draw. -/
def Evaluator.evaluate {P M : Type} (ev : Evaluator) (G : Game P M) (board : P) : Int :=
  let score : Int :=
    (G.piece_map board).foldl
      (fun s piece =>
        s + (if piece.color then PIECE_VALUES piece.piece_type
             else -(PIECE_VALUES piece.piece_type))) 0
  let mobility : Int := (G.legal_moves board).length
  let score := score + ev.mobility_weight * (if G.turn board then mobility else -mobility)
  if G.is_checkmate board then (if G.turn board then -999999 else 999999)
  else if G.is_stalemate board || G.is_insufficient_material board || G.can_claim_draw board
  then 0
  else score

/-- The move-ordering key move_score defined inside NegamaxEngine._negamax:
captures score 1000, promotions 900, all other moves 0. -/
def move_score {P M : Type} (G : Game P M) (board : P) (m : M) : Int :=
  if G.is_capture board m then 1000
  else if G.promotion m then 900
  else 0

/-- Insertion into a list sorted by descending key, placed after every element
of strictly larger key and before any element of equal key (the stable spot). -/
def insort_desc {M : Type} (key : M → Int) (m : M) : List M → List M
  | [] => [m]
  | x :: xs => if key m < key x then x :: insort_desc key m xs else m :: x :: xs

/-- Stable descending sort by key, modelling Python list.sort(key, reverse=True):
Python's sort is stable, and reverse=True keeps equal-key elements in their
original relative order. -/
def sort_desc {M : Type} (key : M → Int) : List M → List M
  | [] => []
  | m :: ms => insort_desc key m (sort_desc key ms)

/-- The mutable board as the search sees it: the current position together
with the stack of previous positions maintained by push/pop. -/
structure MBoard (P M : Type) where
  cur : P
  stack : List P

/-- board.push(move): apply the move in place, saving the previous state. -/
def MBoard.push {P M : Type} (G : Game P M) (b : MBoard P M) (m : M) : MBoard P M :=
  ⟨G.push b.cur m, b.cur :: b.stack⟩

/-- board.pop(): undo the most recent push, restoring the saved state. -/
def MBoard.pop {P M : Type} (b : MBoard P M) : MBoard P M :=
  match b.stack with
  | [] => b
  | p :: rest => ⟨p, rest⟩

/-- The move loop of NegamaxEngine._negamax: for each move, push it, recurse
with the negated window, negate the returned score, pop, update the best
score and move on strict improvement, raise alpha, and break on alpha >= beta.
The recursive search at the next depth is passed in as rec. -/
def negamax_go {P M : Type} (G : Game P M)
    (rec : MBoard P M → Int → Int → (Int × Option M) × MBoard P M) :
    MBoard P M → List M → Int → Int → Int → Option M → (Int × Option M) × MBoard P M
  | b, [], _alpha, _beta, best_score, best_move => ((best_score, best_move), b)
  | b, m :: ms, alpha, beta, best_score, best_move =>
    let r := rec (MBoard.push G b m) (-beta) (-alpha)
    let score := -r.1.1
    let b2 := MBoard.pop r.2
    let best_score2 := if best_score < score then score else best_score
    let best_move2 := if best_score < score then some m else best_move
    let alpha2 := if alpha < score then score else alpha
    if beta ≤ alpha2 then ((best_score2, best_move2), b2)
    else negamax_go G rec b2 ms alpha2 beta best_score2 best_move2

/-- NegamaxEngine._negamax from src/engine/search.py: at depth 0 or on a
finished game return the static evaluation and no move; otherwise order the
legal moves (captures, then promotions, then the rest) and run the
alpha-beta move loop starting from best score -10^9 and no best move. -/
def NegamaxEngine._negamax {P M : Type} (G : Game P M) (ev : Evaluator) :
    Nat → MBoard P M → Int → Int → (Int × Option M) × MBoard P M
  | 0, b, _alpha, _beta => ((ev.evaluate G b.cur, none), b)
  | d + 1, b, alpha, beta =>
    if G.is_game_over b.cur then ((ev.evaluate G b.cur, none), b)
    else
      let moves := sort_desc (move_score G b.cur) (G.legal_moves b.cur)
      negamax_go G (fun b2 a2 c2 => NegamaxEngine._negamax G ev d b2 a2 c2)
        b moves alpha beta (-(10 ^ 9)) none

/-- Search engine configuration: an injected evaluator and a default depth. -/
structure NegamaxEngine where
  evaluator : Evaluator
  depth : Nat := 3

/-- Models random.choice on a list through an injected random index (the
seedable randomness source); none only on the empty list. -/
def random_choice {M : Type} (rng : Nat) (l : List M) : Option M :=
  l[rng % l.length]?

/-- NegamaxEngine.choose_move from src/engine/search.py: resolve the depth,
run _negamax with the full window (-10^9, 10^9), return its move if any,
and otherwise fall back to a random legal move (none if there are none). -/
def NegamaxEngine.choose_move {P M : Type} (G : Game P M) (eng : NegamaxEngine)
    (rng : Nat) (b : MBoard P M) (depth : Option Nat) : Option M × MBoard P M :=
  let d := depth.getD eng.depth
  let r := NegamaxEngine._negamax G eng.evaluator d b (-(10 ^ 9)) (10 ^ 9)
  match r.1.2 with
  | none =>
    let legal := G.legal_moves r.2.cur
    ((if legal.isEmpty then none else random_choice rng legal), r.2)
  | some m => (some m, r.2)

/-- The unpruned full-width negamax reference search described by the spec's
alpha-beta equivalence property (section 8): same tree, same evaluator, no
pruning, the score being the maximum of the negated child scores. -/
def fullNegamax {P M : Type} (G : Game P M) (ev : Evaluator) : Nat → P → Int
  | 0, p => ev.evaluate G p
  | d + 1, p =>
    if G.is_game_over p then ev.evaluate G p
    else
      ((G.legal_moves p).map (fun m => -(fullNegamax G ev d (G.push p m)))).foldl
        max (-(10 ^ 9))

/-- Value form of the alpha-beta move loop on bare positions, with the
recursive search passed in as f and the child position map as child. -/
def negamax_goVal {P M : Type} (f : P → Int → Int → Int × Option M) (child : M → P) :
    List M → Int → Int → Int → Option M → Int × Option M
  | [], _alpha, _beta, best_score, best_move => (best_score, best_move)
  | m :: ms, alpha, beta, best_score, best_move =>
    let r := f (child m) (-beta) (-alpha)
    let score := -r.1
    let best_score2 := if best_score < score then score else best_score
    let best_move2 := if best_score < score then some m else best_move
    let alpha2 := if alpha < score then score else alpha
    if beta ≤ alpha2 then (best_score2, best_move2)
    else negamax_goVal f child ms alpha2 beta best_score2 best_move2

/-- Value form of _negamax on bare positions; the search restores the board,
so its answer depends only on the current position (lemma negamax_bridge). -/
def negamaxVal {P M : Type} (G : Game P M) (ev : Evaluator) :
    Nat → P → Int → Int → Int × Option M
  | 0, p, _alpha, _beta => (ev.evaluate G p, none)
  | d + 1, p, alpha, beta =>
    if G.is_game_over p then (ev.evaluate G p, none)
    else
      negamax_goVal (negamaxVal G ev d) (fun m => G.push p m)
        (sort_desc (move_score G p) (G.legal_moves p)) alpha beta (-(10 ^ 9)) none

/-- A small concrete game on sixteen positions with at most two moves each,
used to exercise the engine on closed inputs: position 2p+m+1 follows
position p by move m, positions from 7 on are finished (7 checkmate,
8 stalemate, 9 insufficient material, 10 claimable draw), move 1 is a
capture, and every position holds a single white pawn. -/
def TG : Game (Fin 16) (Fin 2) where
  piece_map := fun _ => [⟨PieceType.pawn, true⟩]
  legal_moves := fun p => if p.val < 7 then [0, 1] else []
  turn := fun p => p.val % 2 == 0
  is_checkmate := fun p => p.val == 7
  is_stalemate := fun p => p.val == 8
  is_insufficient_material := fun p => p.val == 9
  can_claim_draw := fun p => p.val == 10
  is_game_over := fun p => 7 ≤ p.val
  is_capture := fun _ m => m.val == 1
  promotion := fun _ => false
  push := fun p m => ⟨min (2 * p.val + m.val + 1) 15, by omega⟩

/-- The evaluator instance used on the concrete game. -/
def evT : Evaluator := {}

/-- The engine instance used on the concrete game. -/
def engT : NegamaxEngine := { evaluator := evT }

/-! Helper lemmas: folded maxima over the integers, permutation facts about
the stable sort, and the bridge between the state-passing search and its
value form. -/

lemma le_foldl_max (a : Int) (l : List Int) : a ≤ l.foldl max a := by
  induction l generalizing a with
  | nil => exact le_refl a
  | cons x xs ih => exact le_trans (le_max_left a x) (ih (max a x))

lemma foldl_max_mono {a b : Int} (h : a ≤ b) (l : List Int) :
    l.foldl max a ≤ l.foldl max b := by
  induction l generalizing a b with
  | nil => exact h
  | cons x xs ih => exact ih (max_le_max h (le_refl x))

lemma foldl_max_le {c a : Int} (ha : a ≤ c) {l : List Int}
    (h : ∀ x ∈ l, x ≤ c) : l.foldl max a ≤ c := by
  induction l generalizing a with
  | nil => exact ha
  | cons x xs ih =>
    exact ih (max_le ha (h x (List.mem_cons_self x xs)))
      (fun y hy => h y (List.mem_cons_of_mem x hy))

lemma foldl_max_lt {c a : Int} (ha : a < c) {l : List Int}
    (h : ∀ x ∈ l, x < c) : l.foldl max a < c := by
  induction l generalizing a with
  | nil => exact ha
  | cons x xs ih =>
    exact ih (max_lt ha (h x (List.mem_cons_self x xs)))
      (fun y hy => h y (List.mem_cons_of_mem x hy))

lemma mem_le_foldl_max {x a : Int} {l : List Int} (hx : x ∈ l) :
    x ≤ l.foldl max a := by
  induction l generalizing a with
  | nil => cases hx
  | cons y ys ih =>
    rcases List.mem_cons.mp hx with h | h
    · subst h
      exact le_trans (le_max_right a x) (le_foldl_max (max a x) ys)
    · exact ih h

lemma foldl_max_max (a b : Int) (l : List Int) :
    l.foldl max (max a b) = max a (l.foldl max b) := by
  induction l generalizing b with
  | nil => rfl
  | cons x xs ih =>
    show xs.foldl max (max (max a b) x) = max a (xs.foldl max (max b x))
    rw [max_assoc, ih (max b x)]

lemma foldl_max_perm {l1 l2 : List Int} (h : l1.Perm l2) (a : Int) :
    l1.foldl max a = l2.foldl max a := by
  induction h generalizing a with
  | nil => rfl
  | cons x _ ih => exact ih (max a x)
  | swap x y l =>
    show l.foldl max (max (max a y) x) = l.foldl max (max (max a x) y)
    have h2 : max (max a y) x = max (max a x) y := by omega
    rw [h2]
  | trans _ _ ih1 ih2 => exact (ih1 a).trans (ih2 a)

lemma insort_desc_perm {M : Type} (key : M → Int) (m : M) (l : List M) :
    (insort_desc key m l).Perm (m :: l) := by
  induction l with
  | nil => exact List.Perm.refl [m]
  | cons x xs ih =>
    by_cases h : key m < key x
    · simp only [insort_desc, if_pos h]
      exact (ih.cons x).trans (List.Perm.swap m x xs)
    · simp only [insort_desc, if_neg h]
      exact List.Perm.refl _

lemma sort_desc_perm {M : Type} (key : M → Int) (l : List M) :
    (sort_desc key l).Perm l := by
  induction l with
  | nil => exact List.Perm.refl []
  | cons m ms ih =>
    exact (insort_desc_perm key m (sort_desc key ms)).trans (ih.cons m)

lemma mem_sort_desc {M : Type} {key : M → Int} {m : M} {l : List M}
    (h : m ∈ sort_desc key l) : m ∈ l :=
  (sort_desc_perm key l).mem_iff.mp h

/-- The move loop leaves the board exactly as it received it, and computes the
same answer as its value form, provided the recursive search does. -/
lemma negamax_go_bridge {P M : Type} (G : Game P M)
    (rec : MBoard P M → Int → Int → (Int × Option M) × MBoard P M)
    (recVal : P → Int → Int → Int × Option M)
    (hrec : ∀ b a c, rec b a c = (recVal b.cur a c, b)) :
    ∀ (ms : List M) (b : MBoard P M) (alpha beta bs : Int) (bm : Option M),
      negamax_go G rec b ms alpha beta bs bm =
        (negamax_goVal recVal (fun m => G.push b.cur m) ms alpha beta bs bm, b) := by
  intro ms
  induction ms with
  | nil => intro b alpha beta bs bm; rfl
  | cons m tl ih =>
    intro b alpha beta bs bm
    have hpop : MBoard.pop (MBoard.push G b m) = b := rfl
    have hcur : (MBoard.push G b m).cur = G.push b.cur m := rfl
    simp only [negamax_go, negamax_goVal, hrec, hpop, hcur]
    split <;> split <;> first
      | rfl
      | exact ih b _ beta _ _

/-- _negamax restores the board and agrees with its value form on the current
position. -/
lemma negamax_bridge {P M : Type} (G : Game P M) (ev : Evaluator) :
    ∀ (d : Nat) (b : MBoard P M) (alpha beta : Int),
      NegamaxEngine._negamax G ev d b alpha beta =
        (negamaxVal G ev d b.cur alpha beta, b) := by
  intro d
  induction d with
  | zero => intro b alpha beta; rfl
  | succ d ih =>
    intro b alpha beta
    show (if G.is_game_over b.cur then ((ev.evaluate G b.cur, none), b)
          else negamax_go G (fun b2 a2 c2 => NegamaxEngine._negamax G ev d b2 a2 c2)
            b (sort_desc (move_score G b.cur) (G.legal_moves b.cur)) alpha beta
            (-(10 ^ 9)) none) = _
    simp only [negamaxVal]
    split
    · rfl
    · exact negamax_go_bridge G _ _ (fun b2 a c => ih b2 a c) _ b alpha beta _ none

/-- C3: after any choose_move call the board passed in is restored exactly to
its pre-call state, and likewise after any _negamax call: every push during
the search is matched by exactly one pop before the enclosing call returns,
also when the move loop exits early on a beta cutoff. -/
theorem negamax_choose_move_state_restored {P M : Type} (G : Game P M)
    (ev : Evaluator) (eng : NegamaxEngine) (rng : Nat) (b : MBoard P M)
    (dep : Option Nat) (d : Nat) (alpha beta : Int) :
    (NegamaxEngine._negamax G ev d b alpha beta).2 = b ∧
    (NegamaxEngine.choose_move G eng rng b dep).2 = b := by
  constructor
  · rw [negamax_bridge]
  · simp only [NegamaxEngine.choose_move, negamax_bridge]
    split <;> rfl

lemma insort_desc_append_of_lt {M : Type} (key : M → Int) (m : M) {A : List M}
    (hA : ∀ a ∈ A, key m < key a) (L : List M) :
    insort_desc key m (A ++ L) = A ++ insort_desc key m L := by
  induction A with
  | nil => rfl
  | cons x xs ih =>
    show insort_desc key m (x :: (xs ++ L)) = x :: (xs ++ insort_desc key m L)
    simp only [insort_desc, if_pos (hA x (List.mem_cons_self x xs))]
    exact congrArg (x :: ·) (ih (fun a ha => hA a (List.mem_cons_of_mem x ha)))

lemma insort_desc_eq_cons {M : Type} (key : M → Int) (m : M) {L : List M}
    (h : ∀ x ∈ L, key x ≤ key m) : insort_desc key m L = m :: L := by
  cases L with
  | nil => rfl
  | cons x xs =>
    have hx : ¬ key m < key x := not_lt.mpr (h x (List.mem_cons_self x xs))
    simp only [insort_desc, if_neg hx]

lemma move_score_le_1000 {P M : Type} (G : Game P M) (p : P) (x : M) :
    move_score G p x ≤ 1000 := by
  unfold move_score
  split
  · exact le_refl 1000
  · split <;> norm_num

lemma move_score_of_capture {P M : Type} {G : Game P M} {p : P} {x : M}
    (h : G.is_capture p x = true) : move_score G p x = 1000 := by
  unfold move_score
  rw [if_pos h]

lemma move_score_of_promotion {P M : Type} {G : Game P M} {p : P} {x : M}
    (hc : G.is_capture p x = false) (hp : G.promotion x = true) :
    move_score G p x = 900 := by
  unfold move_score
  rw [if_neg (by simp [hc]), if_pos hp]

lemma move_score_of_quiet {P M : Type} {G : Game P M} {p : P} {x : M}
    (hc : G.is_capture p x = false) (hp : G.promotion x = false) :
    move_score G p x = 0 := by
  unfold move_score
  rw [if_neg (by simp [hc]), if_neg (by simp [hp])]

/-- Decomposition of the stable descending sort by move_score into the three
priority classes, each keeping the relative order of the input list. -/
lemma sort_desc_move_score_eq {P M : Type} (G : Game P M) (p : P) (l : List M) :
    sort_desc (move_score G p) l =
      l.filter (fun m => G.is_capture p m) ++
      l.filter (fun m => G.promotion m && !(G.is_capture p m)) ++
      l.filter (fun m => !(G.is_capture p m) && !(G.promotion m)) := by
  induction l with
  | nil => rfl
  | cons m ms ih =>
    have hF1 : ∀ a ∈ ms.filter (fun m => G.is_capture p m), move_score G p a = 1000 := by
      intro a ha
      exact move_score_of_capture (List.of_mem_filter ha)
    have hF2 : ∀ a ∈ ms.filter (fun m => G.promotion m && !(G.is_capture p m)),
        move_score G p a = 900 := by
      intro a ha
      have h2 := List.of_mem_filter ha
      simp only [Bool.and_eq_true, Bool.not_eq_true'] at h2
      exact move_score_of_promotion h2.2 h2.1
    have hF3 : ∀ a ∈ ms.filter (fun m => !(G.is_capture p m) && !(G.promotion m)),
        move_score G p a = 0 := by
      intro a ha
      have h2 := List.of_mem_filter ha
      simp only [Bool.and_eq_true, Bool.not_eq_true'] at h2
      exact move_score_of_quiet h2.1 h2.2
    show insort_desc (move_score G p) m (sort_desc (move_score G p) ms) = _
    rw [ih, List.append_assoc]
    by_cases hc : G.is_capture p m
    · have hkey : move_score G p m = 1000 := move_score_of_capture hc
      rw [insort_desc_eq_cons (move_score G p) m
        (fun x _ => by rw [hkey]; exact move_score_le_1000 G p x)]
      simp [List.filter_cons, hc, List.append_assoc]
    · have hcf : G.is_capture p m = false := by simp [hc]
      by_cases hp : G.promotion m
      · have hkey : move_score G p m = 900 := move_score_of_promotion hcf hp
        rw [insort_desc_append_of_lt (move_score G p) m
          (fun a ha => by rw [hkey, hF1 a ha]; norm_num) _]
        rw [insort_desc_eq_cons (move_score G p) m
          (fun x hx => by
            rcases List.mem_append.mp hx with h2 | h3
            · rw [hkey, hF2 x h2]
            · rw [hkey, hF3 x h3]
              norm_num)]
        simp [List.filter_cons, hcf, hp, List.append_assoc]
      · have hpf : G.promotion m = false := by simp [hp]
        have hkey : move_score G p m = 0 := move_score_of_quiet hcf hpf
        rw [insort_desc_append_of_lt (move_score G p) m
          (fun a ha => by rw [hkey, hF1 a ha]; norm_num) _]
        rw [insort_desc_append_of_lt (move_score G p) m
          (fun a ha => by rw [hkey, hF2 a ha]; norm_num) _]
        rw [insort_desc_eq_cons (move_score G p) m
          (fun x hx => by rw [hkey, hF3 x hx])]
        simp [List.filter_cons, hcf, hpf, List.append_assoc]

/-- C7: the ordered move list examined at every non-base search node is the
captures first, then the non-capturing promotions, then all remaining moves,
each class keeping the stable relative order of the legal-move enumeration. -/
theorem move_ordering_classes {P M : Type} (G : Game P M) (p : P) :
    sort_desc (move_score G p) (G.legal_moves p) =
      (G.legal_moves p).filter (fun m => G.is_capture p m) ++
      (G.legal_moves p).filter (fun m => G.promotion m && !(G.is_capture p m)) ++
      (G.legal_moves p).filter (fun m => !(G.is_capture p m) && !(G.promotion m)) :=
  sort_desc_move_score_eq G p (G.legal_moves p)

lemma if_lt_max (x y : Int) : (if x < y then y else x) = max x y := by
  omega

/-- The full-width search value stays inside the search window bounds when
the evaluator does. -/
lemma fullNegamax_bounds {P M : Type} (G : Game P M) (ev : Evaluator)
    (he : ∀ p : P, -(10 ^ 9) ≤ ev.evaluate G p ∧ ev.evaluate G p ≤ 10 ^ 9) :
    ∀ (d : Nat) (p : P),
      -(10 ^ 9) ≤ fullNegamax G ev d p ∧ fullNegamax G ev d p ≤ 10 ^ 9 := by
  intro d
  induction d with
  | zero => intro p; exact he p
  | succ d ih =>
    intro p
    simp only [fullNegamax]
    split
    · exact he p
    · constructor
      · exact le_foldl_max _ _
      · refine foldl_max_le (by norm_num) ?_
        intro x hx
        rcases List.mem_map.mp hx with ⟨m, _, hm⟩
        have h2 := (ih (G.push p m)).1
        omega

/-- Fail-soft alpha-beta window lemma for the move loop: relative to the
window of the enclosing node, the loop result never exceeds the true value
beyond alpha and never falls below it beyond beta.  The recursive search f
is assumed to satisfy the same window property against its true value Fv. -/
lemma negamax_goVal_window {P M : Type}
    (f : P → Int → Int → Int × Option M) (child : M → P) (Fv : P → Int)
    (hf : ∀ (q : P) (a c : Int), -(10 ^ 9) ≤ a → a < c → c ≤ 10 ^ 9 →
      (f q a c).1 ≤ max a (Fv q) ∧ min c (Fv q) ≤ (f q a c).1)
    (alpha beta : Int) (halpha : -(10 ^ 9) ≤ alpha) (hbeta : beta ≤ 10 ^ 9) :
    ∀ (ms : List M) (a bs : Int) (bm : Option M),
      a = max alpha bs → a < beta → -(10 ^ 9) ≤ bs →
      (negamax_goVal f child ms a beta bs bm).1 ≤
        max alpha ((ms.map (fun m => -(Fv (child m)))).foldl max bs) ∧
      min beta ((ms.map (fun m => -(Fv (child m)))).foldl max bs) ≤
        (negamax_goVal f child ms a beta bs bm).1 := by
  intro ms
  induction ms with
  | nil =>
    intro a bs bm ha hab hbs
    simp only [negamax_goVal, List.map_nil, List.foldl_nil]
    omega
  | cons m tl ih =>
    intro a bs bm ha hab hbs
    obtain ⟨hfa, hfb⟩ := hf (child m) (-beta) (-a) (by omega) (by omega) (by omega)
    simp only [negamax_goVal, List.map_cons, List.foldl_cons, if_lt_max]
    by_cases hcut : beta ≤ max a (-(f (child m) (-beta) (-a)).1)
    · rw [if_pos hcut]
      have h1 : max bs (-(Fv (child m))) ≤
          (tl.map (fun m => -(Fv (child m)))).foldl max (max bs (-(Fv (child m)))) :=
        le_foldl_max _ _
      dsimp only
      constructor
      · omega
      · omega
    · rw [if_neg hcut]
      obtain ⟨ih1, ih2⟩ := ih (max a (-(f (child m) (-beta) (-a)).1))
        (max bs (-(f (child m) (-beta) (-a)).1))
        (if bs < -(f (child m) (-beta) (-a)).1 then some m else bm)
        (by omega) (by omega) (by omega)
      have hTU : (tl.map (fun m => -(Fv (child m)))).foldl max
            (max bs (-(Fv (child m)))) ≤
          (tl.map (fun m => -(Fv (child m)))).foldl max
            (max bs (-(f (child m) (-beta) (-a)).1)) :=
        foldl_max_mono (by omega) _
      have h5 : max bs (-(f (child m) (-beta) (-a)).1) ≤
          max alpha (max bs (-(Fv (child m)))) := by omega
      have h6 : (tl.map (fun m => -(Fv (child m)))).foldl max
            (max bs (-(f (child m) (-beta) (-a)).1)) ≤
          max alpha ((tl.map (fun m => -(Fv (child m)))).foldl max
            (max bs (-(Fv (child m))))) :=
        le_of_le_of_eq (foldl_max_mono h5 _) (foldl_max_max _ _ _)
      constructor
      · omega
      · omega

/-- Window lemma for the pruned search against the full-width value: inside
any subwindow of (-10^9, 10^9) the pruned score never exceeds the true value
beyond alpha and never undercuts it beyond beta. -/
lemma negamaxVal_window {P M : Type} (G : Game P M) (ev : Evaluator)
    (he : ∀ p : P, -(10 ^ 9) ≤ ev.evaluate G p ∧ ev.evaluate G p ≤ 10 ^ 9) :
    ∀ (d : Nat) (p : P) (alpha beta : Int),
      -(10 ^ 9) ≤ alpha → alpha < beta → beta ≤ 10 ^ 9 →
      (negamaxVal G ev d p alpha beta).1 ≤ max alpha (fullNegamax G ev d p) ∧
      min beta (fullNegamax G ev d p) ≤ (negamaxVal G ev d p alpha beta).1 := by
  intro d
  induction d with
  | zero =>
    intro p alpha beta h1 h2 h3
    simp only [negamaxVal, fullNegamax]
    omega
  | succ d ih =>
    intro p alpha beta h1 h2 h3
    simp only [negamaxVal, fullNegamax]
    split
    · omega
    · have hperm : ((sort_desc (move_score G p) (G.legal_moves p)).map
          (fun m => -(fullNegamax G ev d (G.push p m)))).Perm
          ((G.legal_moves p).map (fun m => -(fullNegamax G ev d (G.push p m)))) :=
        (sort_desc_perm _ _).map _
      have hfold : ((G.legal_moves p).map
            (fun m => -(fullNegamax G ev d (G.push p m)))).foldl max (-(10 ^ 9)) =
          ((sort_desc (move_score G p) (G.legal_moves p)).map
            (fun m => -(fullNegamax G ev d (G.push p m)))).foldl max (-(10 ^ 9)) :=
        (foldl_max_perm hperm _).symm
      rw [hfold]
      exact negamax_goVal_window (negamaxVal G ev d) (fun m => G.push p m)
        (fullNegamax G ev d) (fun q a c ha hac hc => ih q a c ha hac hc)
        alpha beta h1 h3 (sort_desc (move_score G p) (G.legal_moves p))
        alpha (-(10 ^ 9)) none (by omega) h2 (by omega)

/-- C2: with the full initial window, the alpha-beta pruned negamax computes
exactly the score of the unpruned full-width negamax search of the same tree
with the same evaluator, for every position and every depth, given that the
evaluator's scores lie within the window (as the chess evaluator's always
do); pruning never changes the returned score. -/
theorem alphabeta_eq_fullNegamax {P M : Type} (G : Game P M) (ev : Evaluator)
    (he : ∀ p : P, -(10 ^ 9) ≤ ev.evaluate G p ∧ ev.evaluate G p ≤ 10 ^ 9)
    (d : Nat) (b : MBoard P M) :
    (NegamaxEngine._negamax G ev d b (-(10 ^ 9)) (10 ^ 9)).1.1 =
      fullNegamax G ev d b.cur := by
  rw [negamax_bridge]
  have hw := negamaxVal_window G ev he d b.cur (-(10 ^ 9)) (10 ^ 9)
    (le_refl _) (by norm_num) (le_refl _)
  have hb := fullNegamax_bounds G ev he d b.cur
  dsimp only
  omega

/-- Witness for C2: the pruned and the unpruned search agree at depth 3 from
the root of the concrete game. -/
theorem alphabeta_eq_fullNegamax_witness :
    (NegamaxEngine._negamax TG evT 3 ⟨0, []⟩ (-(10 ^ 9)) (10 ^ 9)).1.1 =
      fullNegamax TG evT 3 0 :=
  alphabeta_eq_fullNegamax TG evT (by decide) 3 ⟨0, []⟩

/-- Strict window bounds for the full-width value, available once positions
without legal moves are finished (true of chess) and the evaluator's scores
are strictly inside the window. -/
lemma fullNegamax_bounds_strict {P M : Type} (G : Game P M) (ev : Evaluator)
    (he : ∀ p : P, -(10 ^ 9) < ev.evaluate G p ∧ ev.evaluate G p < 10 ^ 9)
    (hs : ∀ p : P, G.legal_moves p = [] → G.is_game_over p = true) :
    ∀ (d : Nat) (p : P),
      -(10 ^ 9) < fullNegamax G ev d p ∧ fullNegamax G ev d p < 10 ^ 9 := by
  intro d
  induction d with
  | zero => intro p; exact he p
  | succ d ih =>
    intro p
    simp only [fullNegamax]
    split
    · exact he p
    · rename_i hgo
      have hne : G.legal_moves p ≠ [] := fun hnil => hgo (hs p hnil)
      constructor
      · obtain ⟨m, hm⟩ := List.exists_mem_of_ne_nil _ hne
        have hx : -(fullNegamax G ev d (G.push p m)) ∈
            (G.legal_moves p).map (fun m => -(fullNegamax G ev d (G.push p m))) :=
          List.mem_map_of_mem _ hm
        have h2 := (ih (G.push p m)).2
        have h3 := mem_le_foldl_max (a := -(10 ^ 9)) hx
        omega
      · refine foldl_max_lt (by norm_num) ?_
        intro x hx
        rcases List.mem_map.mp hx with ⟨m, _, hm⟩
        have h2 := (ih (G.push p m)).1
        omega

/-- Once the move loop holds some best move it keeps holding one, through
both the cutoff exit and the end of the list. -/
lemma negamax_goVal_isSome {P M : Type} (f : P → Int → Int → Int × Option M)
    (child : M → P) :
    ∀ (ms : List M) (a beta bs : Int) (bm : Option M), bm.isSome = true →
      ((negamax_goVal f child ms a beta bs bm).2).isSome = true := by
  intro ms
  induction ms with
  | nil =>
    intro a beta bs bm hbm
    exact hbm
  | cons m tl ih =>
    intro a beta bs bm hbm
    simp only [negamax_goVal]
    have hbm2 : (if bs < -(f (child m) (-beta) (-a)).1 then some m else bm).isSome
        = true := by
      split
      · rfl
      · exact hbm
    rcases le_or_lt beta
        (if a < -(f (child m) (-beta) (-a)).1
         then -(f (child m) (-beta) (-a)).1 else a) with hc | hc
    · rw [if_pos hc]
      exact hbm2
    · rw [if_neg (not_le.mpr hc)]
      exact ih _ _ _ _ hbm2

/-- At a full-window node of positive depth on an unfinished position, the
search records the first ordered move and therefore returns some move. -/
lemma negamaxVal_some {P M : Type} (G : Game P M) (ev : Evaluator)
    (he : ∀ p : P, -(10 ^ 9) < ev.evaluate G p ∧ ev.evaluate G p < 10 ^ 9)
    (hs : ∀ p : P, G.legal_moves p = [] → G.is_game_over p = true)
    (d : Nat) (p : P) (hgo : G.is_game_over p = false) :
    ((negamaxVal G ev (d + 1) p (-(10 ^ 9)) (10 ^ 9)).2).isSome = true := by
  simp only [negamaxVal]
  rw [if_neg (by simp [hgo])]
  have hne : G.legal_moves p ≠ [] := fun hnil => by
    rw [hs p hnil] at hgo
    cases hgo
  obtain ⟨m1, rest, hsort⟩ :
      ∃ m1 rest, sort_desc (move_score G p) (G.legal_moves p) = m1 :: rest := by
    cases hsd : sort_desc (move_score G p) (G.legal_moves p) with
    | nil =>
      exfalso
      have hlen := (sort_desc_perm (move_score G p) (G.legal_moves p)).length_eq
      rw [hsd] at hlen
      exact hne (List.length_eq_zero.mp hlen.symm)
    | cons a l => exact ⟨a, l, rfl⟩
  rw [hsort]
  simp only [negamax_goVal, neg_neg]
  have hew : ∀ q : P, -(10 ^ 9) ≤ ev.evaluate G q ∧ ev.evaluate G q ≤ 10 ^ 9 :=
    fun q => ⟨le_of_lt (he q).1, le_of_lt (he q).2⟩
  have hw := negamaxVal_window G ev hew d (G.push p m1) (-(10 ^ 9)) (10 ^ 9)
    (le_refl _) (by norm_num) (le_refl _)
  have hfb := fullNegamax_bounds_strict G ev he hs d (G.push p m1)
  have hscore : (-(10 ^ 9) : Int) <
      -(negamaxVal G ev d (G.push p m1) (-(10 ^ 9)) (10 ^ 9)).1 := by omega
  simp only [if_pos hscore]
  have hsc2 : ¬ ((10 ^ 9 : Int) ≤
      -(negamaxVal G ev d (G.push p m1) (-(10 ^ 9)) (10 ^ 9)).1) := by omega
  rw [if_neg hsc2]
  exact negamax_goVal_isSome _ _ rest _ _ _ _ rfl

/-- C4 counterexample: at effective depth 1 from a finished position the
negamax call returns no move, so the search can return no move at a
positive depth and the fallback is not confined to depth zero. -/
theorem negamax_none_at_depth_one_terminal :
    (NegamaxEngine._negamax TG evT 1 ⟨7, []⟩ (-(10 ^ 9)) (10 ^ 9)).1.2 = none := by
  decide

/-- C4 amended: the search returns no move exactly at depth zero or on a
finished position: for every unfinished position and every effective depth
of at least one, _negamax with the full window returns some move, given the
chess invariants that move-less positions are finished and that evaluations
lie strictly inside the window. -/
theorem negamax_returns_move {P M : Type} (G : Game P M) (ev : Evaluator)
    (he : ∀ p : P, -(10 ^ 9) < ev.evaluate G p ∧ ev.evaluate G p < 10 ^ 9)
    (hs : ∀ p : P, G.legal_moves p = [] → G.is_game_over p = true)
    (d : Nat) (b : MBoard P M) (hgo : G.is_game_over b.cur = false) :
    ((NegamaxEngine._negamax G ev (d + 1) b (-(10 ^ 9)) (10 ^ 9)).1.2).isSome
      = true := by
  rw [negamax_bridge]
  exact negamaxVal_some G ev he hs d b.cur hgo

/-- Witness for the amended C4 at depth 2 from the root of the concrete game. -/
theorem negamax_returns_move_witness :
    ((NegamaxEngine._negamax TG evT 2 ⟨0, []⟩ (-(10 ^ 9)) (10 ^ 9)).1.2).isSome
      = true :=
  negamax_returns_move TG evT (by decide) (by decide) 1 ⟨0, []⟩ (by decide)

/-- C5: a checkmated position evaluates to one of the sentinels -999999 and
999999, the sign determined solely by the color to move (negative exactly
when white, the designated positive color, is to move), regardless of the
material and mobility terms. -/
theorem evaluate_checkmate {P M : Type} (G : Game P M) (ev : Evaluator) (p : P)
    (h : G.is_checkmate p = true) :
    ev.evaluate G p = if G.turn p then -999999 else 999999 := by
  simp [Evaluator.evaluate, h]

/-- Witness for C5 at the checkmated position of the concrete game, where
black is to move. -/
theorem evaluate_checkmate_witness :
    evT.evaluate TG 7 = if TG.turn 7 then -999999 else 999999 :=
  evaluate_checkmate TG evT 7 (by decide)

/-- C6: a position that is not checkmate but is stalemate, has insufficient
material, or allows a draw claim evaluates to exactly zero, regardless of the
material and mobility terms. -/
theorem evaluate_draw_zero {P M : Type} (G : Game P M) (ev : Evaluator) (p : P)
    (h1 : G.is_checkmate p = false)
    (h2 : (G.is_stalemate p || G.is_insufficient_material p || G.can_claim_draw p)
      = true) :
    ev.evaluate G p = 0 := by
  simp [Evaluator.evaluate, h1, h2]

/-- Witness for C6 at the stalemate position of the concrete game. -/
theorem evaluate_draw_zero_witness : evT.evaluate TG 8 = 0 :=
  evaluate_draw_zero TG evT 8 (by decide) (by decide)

/-- C1: the evaluation is white-relative, not side-to-move-relative.  Two
positions of the concrete game agree on every observation (pieces, legal
moves, terminal flags) and differ only in the side to move, yet they
evaluate to 106 and 94 instead of negations of each other, refuting the
negamax convention stated for the evaluator. -/
theorem evaluate_not_side_to_move_relative :
    TG.piece_map 1 = TG.piece_map 0 ∧
    TG.legal_moves 1 = TG.legal_moves 0 ∧
    TG.turn 1 = !TG.turn 0 ∧
    TG.is_checkmate 0 = false ∧ TG.is_checkmate 1 = false ∧
    TG.is_stalemate 0 = false ∧ TG.is_stalemate 1 = false ∧
    TG.is_insufficient_material 0 = false ∧ TG.is_insufficient_material 1 = false ∧
    TG.can_claim_draw 0 = false ∧ TG.can_claim_draw 1 = false ∧
    TG.is_game_over 0 = false ∧ TG.is_game_over 1 = false ∧
    evT.evaluate TG 0 = 106 ∧ evT.evaluate TG 1 = 94 ∧
    ¬(evT.evaluate TG 1 = -(evT.evaluate TG 0)) := by
  decide

/-- C8: at depth zero the fallback governs choose_move: it returns a move
drawn from the legal-move enumeration whenever that set is non-empty, and no
move when it is empty. -/
theorem choose_move_depth_zero {P M : Type} (G : Game P M) (eng : NegamaxEngine)
    (rng : Nat) (b : MBoard P M) :
    (G.legal_moves b.cur = [] →
      (NegamaxEngine.choose_move G eng rng b (some 0)).1 = none) ∧
    (G.legal_moves b.cur ≠ [] →
      ∃ m, (NegamaxEngine.choose_move G eng rng b (some 0)).1 = some m ∧
        m ∈ G.legal_moves b.cur) := by
  constructor
  · intro h
    simp [NegamaxEngine.choose_move, NegamaxEngine._negamax, h]
  · intro h
    have hlen : 0 < (G.legal_moves b.cur).length := List.length_pos.mpr h
    have hidx : rng % (G.legal_moves b.cur).length < (G.legal_moves b.cur).length :=
      Nat.mod_lt _ hlen
    refine ⟨(G.legal_moves b.cur).get ⟨rng % (G.legal_moves b.cur).length, hidx⟩,
      ?_, List.get_mem _ _ _⟩
    have hemp : (G.legal_moves b.cur).isEmpty = false := by
      cases hl : G.legal_moves b.cur with
      | nil => exact absurd hl h
      | cons x xs => rfl
    simp [NegamaxEngine.choose_move, NegamaxEngine._negamax, hemp, random_choice,
      List.getElem?_eq_getElem hidx]

/-- Witness for C8: a depth-zero call on the root of the concrete game
returns one of its legal moves. -/
theorem choose_move_depth_zero_witness :
    ∃ m, (NegamaxEngine.choose_move TG engT 5 ⟨0, []⟩ (some 0)).1 = some m ∧
      m ∈ TG.legal_moves 0 :=
  (choose_move_depth_zero TG engT 5 ⟨0, []⟩).2 (by decide)

/-- C9: away from the random fallback, choose_move is deterministic: when
the negamax call finds a move, calls with any two randomness sources return
exactly that move (identical full results, board included), the search score
being the same by functionality of the embedded search. -/
theorem choose_move_deterministic {P M : Type} (G : Game P M)
    (eng : NegamaxEngine) (rng1 rng2 : Nat) (b : MBoard P M) (dep : Option Nat)
    (m : M)
    (h : (NegamaxEngine._negamax G eng.evaluator (dep.getD eng.depth) b
        (-(10 ^ 9)) (10 ^ 9)).1.2 = some m) :
    NegamaxEngine.choose_move G eng rng1 b dep = (some m, b) ∧
    NegamaxEngine.choose_move G eng rng2 b dep = (some m, b) := by
  have hst := negamax_bridge G eng.evaluator (dep.getD eng.depth) b
    (-(10 ^ 9)) (10 ^ 9)
  rw [hst] at h
  dsimp only at h
  constructor <;>
  · simp only [NegamaxEngine.choose_move]
    rw [hst]
    dsimp only
    rw [h]

/-- Witness for C9: at depth 1 from the root of the concrete game, two calls
with different randomness both return the move found by the search. -/
theorem choose_move_deterministic_witness :
    NegamaxEngine.choose_move TG engT 3 ⟨0, []⟩ (some 1) = (some 0, ⟨0, []⟩) ∧
    NegamaxEngine.choose_move TG engT 42 ⟨0, []⟩ (some 1) = (some 0, ⟨0, []⟩) :=
  choose_move_deterministic TG engT 3 42 ⟨0, []⟩ (some 1) 0 (by decide)

/-- The move returned by the loop comes from its move list or was the best
move it started from. -/
lemma negamax_goVal_mem {P M : Type} (f : P → Int → Int → Int × Option M)
    (child : M → P) :
    ∀ (ms : List M) (a beta bs : Int) (bm : Option M) (m : M),
      (negamax_goVal f child ms a beta bs bm).2 = some m →
      m ∈ ms ∨ bm = some m := by
  intro ms
  induction ms with
  | nil =>
    intro a beta bs bm m h
    exact Or.inr h
  | cons x tl ih =>
    intro a beta bs bm m h
    simp only [negamax_goVal] at h
    rcases le_or_lt beta (if a < -(f (child x) (-beta) (-a)).1
        then -(f (child x) (-beta) (-a)).1 else a) with hc | hc
    · rw [if_pos hc] at h
      dsimp only at h
      by_cases hb : bs < -(f (child x) (-beta) (-a)).1
      · rw [if_pos hb] at h
        obtain rfl := Option.some_inj.mp h
        exact Or.inl (List.mem_cons_self _ _)
      · rw [if_neg hb] at h
        exact Or.inr h
    · rw [if_neg (not_le.mpr hc)] at h
      rcases ih _ _ _ _ _ h with h2 | h2
      · exact Or.inl (List.mem_cons_of_mem _ h2)
      · by_cases hb : bs < -(f (child x) (-beta) (-a)).1
        · rw [if_pos hb] at h2
          obtain rfl := Option.some_inj.mp h2
          exact Or.inl (List.mem_cons_self _ _)
        · rw [if_neg hb] at h2
          exact Or.inr h2

/-- A move returned by the value search is one of the position's legal moves. -/
lemma negamaxVal_mem {P M : Type} (G : Game P M) (ev : Evaluator)
    (d : Nat) (p : P) (alpha beta : Int) (m : M)
    (h : (negamaxVal G ev d p alpha beta).2 = some m) :
    m ∈ G.legal_moves p := by
  cases d with
  | zero =>
    simp only [negamaxVal] at h
    cases h
  | succ d =>
    simp only [negamaxVal] at h
    by_cases hgo : G.is_game_over p
    · rw [if_pos hgo] at h
      cases h
    · rw [if_neg hgo] at h
      rcases negamax_goVal_mem _ _ _ _ _ _ _ _ h with h2 | h2
      · exact mem_sort_desc h2
      · cases h2

/-- C10: whenever choose_move returns a move at all, that move belongs to
the legal-move set of the position as passed in, on the search path and on
the random-fallback path alike. -/
theorem choose_move_mem_legal {P M : Type} (G : Game P M) (eng : NegamaxEngine)
    (rng : Nat) (b : MBoard P M) (dep : Option Nat) (m : M)
    (h : (NegamaxEngine.choose_move G eng rng b dep).1 = some m) :
    m ∈ G.legal_moves b.cur := by
  have hst := negamax_bridge G eng.evaluator (dep.getD eng.depth) b
    (-(10 ^ 9)) (10 ^ 9)
  simp only [NegamaxEngine.choose_move, hst] at h
  cases hv : (negamaxVal G eng.evaluator (dep.getD eng.depth) b.cur
      (-(10 ^ 9)) (10 ^ 9)).2 with
  | none =>
    rw [hv] at h
    dsimp only at h
    by_cases hemp : (G.legal_moves b.cur).isEmpty
    · rw [if_pos hemp] at h
      cases h
    · rw [if_neg hemp] at h
      exact List.getElem?_mem h
  | some m2 =>
    rw [hv] at h
    dsimp only at h
    obtain rfl := Option.some_inj.mp h.symm
    exact negamaxVal_mem G eng.evaluator _ b.cur _ _ m hv

/-- Witness for C10: at depth 2 from the root of the concrete game the
returned move is legal at the root. -/
theorem choose_move_mem_legal_witness : (1 : Fin 2) ∈ TG.legal_moves 0 :=
  choose_move_mem_legal TG engT 9 ⟨0, []⟩ (some 2) 1 (by decide)
